import Mathlib

/-!
Verification of the ScrapeIQ fetch pipeline against its specification.

The development shallowly embeds the core components of the repository:
the checkpoint store (`src/utils/state_manager.py`), the retry policy
(`src/utils/retry.py`, built on the tenacity library), the rate limiter
(`src/utils/rate_limiter.py`), the API client (`src/scraper/jira_client.py`)
and the orchestration loop (`src/scraper/data_scraper.py`).

Python dictionaries are embedded as association lists, Python sets as
duplicate-free lists with membership semantics, machine floats used for
clock readings and backoff delays as rationals, and fallible operations
as `Except` values.  Wall-clock time for the rate limiter is made explicit:
every `time.time()` reading is an input to the model, constrained to be
strictly increasing (a fresh reading is strictly later than every earlier
one) and to advance by at least the requested amount across a `time.sleep`.
-/

/- ------------------------------------------------------------------ -/
/- Checkpoint store: `StateManager` from src/utils/state_manager.py.  -/
/- ------------------------------------------------------------------ -/

/-- In-memory checkpoint state (`StateManager.state`).  `projects` maps a
project key to its `scraped_issues` list; `completed_projects` models the
Python set as a duplicate-free list with membership semantics. -/
structure ScraperState where
  last_updated : Option String
  projects : List (String × List String)
  completed_projects : List String
  current_project : Option String
  current_issue_index : Nat
  total_issues_scraped : Nat
deriving Repr, DecidableEq

/-- `StateManager._empty_state`. -/
def empty_state : ScraperState :=
  { last_updated := none
    projects := []
    completed_projects := []
    current_project := none
    current_issue_index := 0
    total_issues_scraped := 0 }

/-- Lookup of `projects[project]` in the association list embedding of the
Python dict. -/
def getEntry (ps : List (String × List String)) (p : String) : Option (List String) :=
  match ps with
  | [] => none
  | (q, m) :: rest => if q = p then some m else getEntry rest p

/-- Assignment `projects[project] = l`: replaces the first matching entry,
or appends a fresh one. -/
def setEntry (ps : List (String × List String)) (p : String) (l : List String) :
    List (String × List String) :=
  match ps with
  | [] => [(p, l)]
  | (q, m) :: rest => if q = p then (p, l) :: rest else (q, m) :: setEntry rest p l

/-- The `if project not in self.state["projects"]` initialisation step of
`mark_issue_scraped`: ensure the project has an entry with an empty
`scraped_issues` list. -/
def ensureProject (ps : List (String × List String)) (p : String) :
    List (String × List String) :=
  match getEntry ps p with
  | some _ => ps
  | none => ps ++ [(p, [])]

/-- `StateManager.get_scraped_issues` (as the underlying list; the Python
code wraps it in a set, which only affects membership queries). -/
def get_scraped_issues (s : ScraperState) (project : String) : List String :=
  (getEntry s.projects project).getD []

/-- `StateManager.mark_issue_scraped`: ensure the project entry exists; if
the key is not yet recorded, append it and increment the global counter
(the subsequent `save_state()` call is modelled separately as it only
touches durable storage). -/
def mark_issue_scraped (s : ScraperState) (project issue_key : String) : ScraperState :=
  let ps := ensureProject s.projects project
  let issues := (getEntry ps project).getD []
  if issue_key ∈ issues then { s with projects := ps }
  else
    { s with
        projects := setEntry ps project (issues ++ [issue_key])
        total_issues_scraped := s.total_issues_scraped + 1 }

/-- `StateManager.mark_project_completed`: `set.add` on the completed set,
modelled as append-if-absent on the duplicate-free list. -/
def mark_project_completed (s : ScraperState) (project : String) : ScraperState :=
  { s with
      completed_projects :=
        if project ∈ s.completed_projects then s.completed_projects
        else s.completed_projects ++ [project] }

/-- `StateManager.is_project_completed`. -/
def is_project_completed (s : ScraperState) (project : String) : Bool :=
  s.completed_projects.contains project

/-- The durable JSON document written by `StateManager.save_state`:
the in-memory state with `completed_projects` converted from a set to a
list and `last_updated` refreshed to the serialisation timestamp. -/
structure SavedState where
  last_updated : Option String
  projects : List (String × List String)
  completed_projects : List String
  current_project : Option String
  current_issue_index : Nat
  total_issues_scraped : Nat
deriving Repr, DecidableEq

/-- Content mapping of `StateManager.save_state`: which document is
serialised for a given in-memory state and timestamp. -/
def save_state (s : ScraperState) (timestamp : String) : SavedState :=
  { last_updated := some timestamp
    projects := s.projects
    completed_projects := s.completed_projects
    current_project := s.current_project
    current_issue_index := s.current_issue_index
    total_issues_scraped := s.total_issues_scraped }

/-- `StateManager._load_state`, successful-parse case: the loaded document
becomes the in-memory state, with `completed_projects` converted back to a
set (here: the same duplicate-free list, membership-equivalent). -/
def load_state (d : SavedState) : ScraperState :=
  { last_updated := d.last_updated
    projects := d.projects
    completed_projects := d.completed_projects
    current_project := d.current_project
    current_issue_index := d.current_issue_index
    total_issues_scraped := d.total_issues_scraped }

/- File-system level model of `save_state`, for the write-then-replace
claim.  A file system maps paths to contents; `save_state` opens the state
file with mode "w" (truncating it) and then writes the serialised payload
into it. -/

/-- File-system operations relevant to checkpoint persistence. -/
inductive FsOp where
  | truncOpen (path : String)
  | writeAll (path : String) (data : String)
  | rename (src dst : String)
deriving Repr, DecidableEq

/-- Effect of one operation on the file system. -/
def applyFsOp (fs : String → Option String) : FsOp → String → Option String
  | .truncOpen p, q => if q = p then some "" else fs q
  | .writeAll p d, q => if q = p then some (((fs p).getD "") ++ d) else fs q
  | .rename src dst, q =>
      if q = dst then fs src else if q = src then none else fs q

/-- Apply a list of file-system operations in order. -/
def applyFsOps (fs : String → Option String) (ops : List FsOp) : String → Option String :=
  ops.foldl applyFsOp fs

/-- The file-system operations performed by `StateManager.save_state`:
`open(self.state_file, 'w')` truncates the state file in place, then
`json.dump` writes the payload into it.  No temporary file and no rename
are involved. -/
def save_state_ops (path payload : String) : List FsOp :=
  [.truncOpen path, .writeAll path payload]

/-- A necessary shape condition for the durable file to be parseable:
`json.dump` of the state dict always produces a brace-delimited object,
so any parseable snapshot starts with `\x7b` and ends with `\x7d`. -/
def isJsonObjectShaped (s : String) : Bool :=
  s.startsWith "\x7b" && s.endsWith "\x7d"

/- Operation sequences over the checkpoint store, for the counter
invariant. -/

/-- Mutating checkpoint operations considered by the counter invariant. -/
inductive CheckpointOp where
  | markIssue (project issue_key : String)
  | markProject (project : String)
deriving Repr, DecidableEq

/-- Apply one checkpoint operation. -/
def applyCkptOp (s : ScraperState) : CheckpointOp → ScraperState
  | .markIssue p k => mark_issue_scraped s p k
  | .markProject p => mark_project_completed s p

/-- Apply a sequence of checkpoint operations from left to right. -/
def applyCkptOps (s : ScraperState) (ops : List CheckpointOp) : ScraperState :=
  ops.foldl applyCkptOp s

/-- Sum over all projects of the length of the recorded scraped-key list. -/
def projectsTotal (ps : List (String × List String)) : Nat :=
  (ps.map (fun e => e.2.length)).sum

/-- Sum over all projects of the number of distinct recorded scraped keys. -/
def projectsDistinctTotal (ps : List (String × List String)) : Nat :=
  (ps.map (fun e => e.2.dedup.length)).sum

/- ------------------------------------------------------------------ -/
/- Retry policy: `retry_with_backoff` from src/utils/retry.py.        -/
/- ------------------------------------------------------------------ -/

/-- The `requests.exceptions.RequestException` subclasses that the wrapped
operations can raise.  An `httpError` carries
`exception.response.status_code` (absent when `exception.response` is
falsy). -/
inductive ReqError where
  | httpError (status : Option Nat)
  | connectionError
  | timeout
  | chunkedEncodingError
  | otherRequestException
deriving Repr, DecidableEq

/-- `is_retryable_error` from src/utils/retry.py: 429 and 5xx HTTP errors
are retryable, as are connection errors, timeouts and truncated responses;
every other request exception is not. -/
def is_retryable_error : ReqError → Bool
  | .httpError (some s) =>
      if s = 429 ∨ s = 500 ∨ s = 502 ∨ s = 503 ∨ s = 504 then true else false
  | .httpError none => false
  | .connectionError => true
  | .timeout => true
  | .chunkedEncodingError => true
  | .otherRequestException => false

/-- tenacity's retry predicate as configured in `retry_with_backoff`:
`retry_if_exception_type((requests.exceptions.RequestException,))`.  Every
error in the model is a `RequestException` subclass, so the predicate is
constantly true — in particular it does not consult `is_retryable_error`. -/
def tenacityRetriesOn : ReqError → Bool := fun _ => true

/-- Configuration of `retry_with_backoff` (decorator arguments). -/
structure RetryConfig where
  maxRetries : Nat
  initialDelay : ℚ
  maxDelay : ℚ
  base : ℚ
deriving Repr, DecidableEq

/-- Default decorator arguments of `retry_with_backoff`. -/
def defaultRetryConfig : RetryConfig :=
  { maxRetries := 5, initialDelay := 1, maxDelay := 60, base := 2 }

/-- tenacity `wait_exponential(multiplier=initial_delay, max=max_delay,
exp_base=exponential_base)` evaluated after the attempt with 1-based
number `attemptNumber`:
`max(max(0, min), min(multiplier * exp_base^(attempt_number - 1), max))`
with the default lower bound `min = 0`. -/
def waitExponential (cfg : RetryConfig) (attemptNumber : Nat) : ℚ :=
  max 0 (min (cfg.initialDelay * cfg.base ^ (attemptNumber - 1)) cfg.maxDelay)

/-- Outcome of running a wrapped operation through tenacity: the final
result, the number of times the underlying operation was invoked, and the
sleeps performed between attempts. -/
structure RetryOutcome (α : Type) where
  result : Except ReqError α
  attempts : Nat
  delays : List ℚ
deriving Repr

/-- tenacity's retry loop as configured by `retry_with_backoff`:
`stop=stop_after_attempt(max_retries + 1)`, `reraise=True`, retrying on
every `RequestException`.  `op n` is the outcome of the (0-based) `n`-th
invocation of the wrapped function; `fuel` is the number of attempts still
allowed.  The inner `wrapper` in src/utils/retry.py re-raises the caught
exception on both the retryable and the non-retryable branch, so it does
not alter this control flow. -/
def tenacityRun (cfg : RetryConfig) (op : Nat → Except ReqError α) :
    Nat → Nat → RetryOutcome α
  | _, 0 => { result := .error .otherRequestException, attempts := 0, delays := [] }
  | n, fuel + 1 =>
    match op n with
    | .ok v => { result := .ok v, attempts := 1, delays := [] }
    | .error e =>
      if tenacityRetriesOn e = false then
        { result := .error e, attempts := 1, delays := [] }
      else if fuel = 0 then
        { result := .error e, attempts := 1, delays := [] }
      else
        let w := waitExponential cfg (n + 1)
        let rest := tenacityRun cfg op (n + 1) fuel
        { result := rest.result, attempts := rest.attempts + 1, delays := w :: rest.delays }

/-- `retry_with_backoff cfg op`: run `op` under the decorator built in
src/utils/retry.py. -/
def retry_with_backoff (cfg : RetryConfig) (op : Nat → Except ReqError α) :
    RetryOutcome α :=
  tenacityRun cfg op 0 (cfg.maxRetries + 1)

/- ------------------------------------------------------------------ -/
/- API client: src/scraper/jira_client.py.                            -/
/- ------------------------------------------------------------------ -/

/-- A raw comment object from the comment endpoint: `author.displayName`
(when `author` is present), `body` and `created`, each possibly absent. -/
structure RawComment where
  author : Option String
  body : Option String
  created : Option String
deriving Repr, DecidableEq

/-- An HTTP response as seen by `_make_request`: the status code, and the
`comments` field of the JSON body when the document carries one. -/
structure HttpResponse where
  status : Nat
  comments : Option (List RawComment)
deriving Repr, DecidableEq

/-- One attempt of `JiraClient._make_request` on the comment endpoint.
`r1` is the first response; on a 429 the code sleeps for `Retry-After` and
issues a single immediate re-request whose response is `r2`.
`raise_for_status` then raises an `HTTPError` for any 4xx/5xx status; the
handler translates a 404 into returning the empty dict `\x7b\x7d` (no
`comments` field) and re-raises everything else. -/
def make_request (r1 r2 : HttpResponse) : Except ReqError (Option (List RawComment)) :=
  let r := if r1.status = 429 then r2 else r1
  if 400 ≤ r.status then
    if r.status = 404 then .ok none
    else .error (.httpError (some r.status))
  else .ok r.comments

/-- `JiraClient.get_issue_comments`: call the retry-wrapped
`_make_request` on `issue/<key>/comment`; on success return the
`comments` field defaulting to `[]`; on any exception return `[]`.
`responses n` gives the pair of server responses seen by the `n`-th
attempt. -/
def get_issue_comments (cfg : RetryConfig) (responses : Nat → HttpResponse × HttpResponse) :
    List RawComment :=
  match (retry_with_backoff cfg (fun n => make_request (responses n).1 (responses n).2)).result with
  | .ok d => d.getD []
  | .error _ => []

/- ------------------------------------------------------------------ -/
/- Orchestrator: `DataScraper` from src/scraper/data_scraper.py.      -/
/- ------------------------------------------------------------------ -/

/-- A normalised comment inside an `EnrichedIssue` (built by
`_enrich_issue`): every field defaulted to the empty string when absent. -/
structure EnrichedComment where
  author : String
  body : String
  created : String
deriving Repr, DecidableEq

/-- The raw issue fields used by the enrichment model. -/
structure RawIssue where
  summary : Option String
  description : Option String
deriving Repr, DecidableEq

/-- The enriched record built by `DataScraper._enrich_issue` (field
normalisation shown for the summary/description pattern used by all the
scalar fields, plus the comment sequence, which is the part the claims
are about). -/
structure EnrichedIssue where
  key : String
  summary : String
  description : String
  comments : List EnrichedComment
deriving Repr, DecidableEq

/-- `DataScraper._enrich_issue`, successful case: attach the fetched
comments, defaulting each absent sub-field to the empty string. -/
def enrich_issue (key : String) (raw : RawIssue) (comments : List RawComment) :
    EnrichedIssue :=
  { key := key
    summary := raw.summary.getD ""
    description := raw.description.getD ""
    comments := comments.map (fun c => ⟨c.author.getD "", c.body.getD "", c.created.getD ""⟩) }

/-- Observable events of the orchestration loop, in program order. -/
inductive ScrapeEvent where
  | fetchPage (startAt : Nat)
  | fetchComments (key : String)
  | buildEnriched (key : String)
  | markScraped (key : String)
  | emit (key : String)
deriving Repr, DecidableEq, BEq

/-- The per-issue body of `DataScraper.scrape_project`'s page loop:
skip keys already in the scraped snapshot; otherwise `_enrich_issue`
fetches the comments and builds the enriched record, and when it returns a
record the issue is marked scraped in the checkpoint and then yielded to
the consumer.  `enrichOk key` abstracts whether `_enrich_issue` returns a
record (`True`) or swallows an exception and returns `None` (`False`).
The second component reports whether the issue was emitted. -/
def process_issue (enrichOk : String → Bool) (scraped : List String) (key : String) :
    List ScrapeEvent × Bool :=
  if key ∈ scraped then ([], false)
  else if enrichOk key then
    ([.fetchComments key, .buildEnriched key, .markScraped key, .emit key], true)
  else ([.fetchComments key], false)

/-- `for issue in issues:` — process every issue of a page against the
scraped-key snapshot taken at the start of `scrape_project`; returns the
event trace and the list of emitted keys in order. -/
def process_page (enrichOk : String → Bool) (scraped : List String) :
    List String → List ScrapeEvent × List String
  | [] => ([], [])
  | k :: rest =>
    let step := process_issue enrichOk scraped k
    let tail := process_page enrichOk scraped rest
    (step.1 ++ tail.1, (if step.2 then [k] else []) ++ tail.2)

/-- A listing response: the keys of the returned issues plus the `total`
and `startAt` fields used for pagination. -/
structure PageResponse where
  issues : List String
  total : Nat
  startAt : Nat
deriving Repr, DecidableEq

/-- The `while True` pagination loop of `DataScraper.scrape_project`
(non-exception path): fetch the page at `startAt`; stop on an empty page;
process every issue of the page; advance `startAt` by the page length;
stop when `startAt` reaches `total` or the running `scraped_count`
(carried across projects by the `DataScraper` instance) has reached the
`MAX_ISSUES_PER_PROJECT` safety cap.  `fuel` bounds the number of loop
iterations.  Returns the event trace, the emitted keys and the final
`scraped_count`. -/
def scrape_loop (server : Nat → PageResponse) (enrichOk : String → Bool)
    (scraped : List String) (cap : Nat) :
    Nat → Nat → Nat → List ScrapeEvent × List String × Nat
  | 0, _, count => ([], [], count)
  | fuel + 1, startAt, count =>
    let resp := server startAt
    if resp.issues.isEmpty then ([.fetchPage startAt], [], count)
    else
      let page := process_page enrichOk scraped resp.issues
      let count' := count + page.2.length
      let startAt' := resp.startAt + resp.issues.length
      if resp.total ≤ startAt' then (.fetchPage startAt :: page.1, page.2, count')
      else if cap ≤ count' then (.fetchPage startAt :: page.1, page.2, count')
      else
        let rest := scrape_loop server enrichOk scraped cap fuel startAt' count'
        (.fetchPage startAt :: page.1 ++ rest.1, page.2 ++ rest.2.1, rest.2.2)

/-- `DataScraper.scrape_project` for a non-completed project: pagination
starts at `startAt = 0`, with the scraped-key snapshot `scraped` and the
instance's current `scraped_count` `c0`. -/
def scrape_project (server : Nat → PageResponse) (enrichOk : String → Bool)
    (scraped : List String) (cap fuel c0 : Nat) :
    List ScrapeEvent × List String × Nat :=
  scrape_loop server enrichOk scraped cap fuel 0 c0

/- ------------------------------------------------------------------ -/
/- Rate limiter: `RateLimiter` from src/utils/rate_limiter.py.        -/
/- ------------------------------------------------------------------ -/

/-- The `time.time()` readings taken during one `wait_if_needed` call:
`now1` at entry, `now2` after the sleep (used only on the sleep path), and
`tNew`, the reading appended to the deque. -/
structure CallTimes where
  now1 : ℚ
  now2 : ℚ
  tNew : ℚ
deriving Repr, DecidableEq

/-- Rate limiter execution state: the `self.calls` deque (oldest first),
the full history of recorded call timestamps, and the last clock reading
issued so far. -/
structure RLState where
  calls : List ℚ
  hist : List ℚ
  lastReading : ℚ
deriving Repr, DecidableEq

/-- `while self.calls and self.calls[0] < now - self.period:
self.calls.popleft()`. -/
def pruneCalls (period now : ℚ) (calls : List ℚ) : List ℚ :=
  calls.dropWhile (fun c => decide (c < now - period))

/-- Whether `wait_if_needed` takes the sleep branch when entered with
deque `calls` at clock reading `now1`: after purging, the quota is reached
and `self.calls[0] + self.period - now` is positive. -/
def sleepsAt (maxCalls : Nat) (period : ℚ) (calls : List ℚ) (now1 : ℚ) : Bool :=
  let cs := pruneCalls period now1 calls
  decide (maxCalls ≤ cs.length) && decide (0 < cs.headD 0 + period - now1)

/-- `RateLimiter.wait_if_needed`: purge expired timestamps; if the quota
is reached and the oldest entry has positive residual life, sleep until it
expires and purge again; finally record a fresh reading. -/
def wait_if_needed (maxCalls : Nat) (period : ℚ) (s : RLState) (c : CallTimes) : RLState :=
  let cs := pruneCalls period c.now1 s.calls
  if sleepsAt maxCalls period s.calls c.now1 then
    let cs2 := pruneCalls period c.now2 cs
    { calls := cs2 ++ [c.tNew], hist := s.hist ++ [c.tNew], lastReading := c.tNew }
  else
    { calls := cs ++ [c.tNew], hist := s.hist ++ [c.tNew], lastReading := c.tNew }

/-- Admissible clock readings for one call: every reading is strictly
later than all earlier ones, and on the sleep path the post-sleep reading
has advanced by at least the requested sleep time
(`self.calls[0] + self.period - now`). -/
def validCall (maxCalls : Nat) (period : ℚ) (s : RLState) (c : CallTimes) : Bool :=
  decide (s.lastReading < c.now1) &&
  (if sleepsAt maxCalls period s.calls c.now1 then
     decide ((pruneCalls period c.now1 s.calls).headD 0 + period ≤ c.now2) &&
       decide (c.now2 < c.tNew)
   else decide (c.now1 < c.tNew))

/-- Admissibility of a whole call sequence. -/
def validTrace (maxCalls : Nat) (period : ℚ) : RLState → List CallTimes → Bool
  | _, [] => true
  | s, c :: rest =>
    validCall maxCalls period s c &&
      validTrace maxCalls period (wait_if_needed maxCalls period s c) rest

/-- Execute a call sequence. -/
def runTrace (maxCalls : Nat) (period : ℚ) (s : RLState) (tr : List CallTimes) : RLState :=
  tr.foldl (wait_if_needed maxCalls period) s

/-- A freshly constructed `RateLimiter`: empty deque, no recorded calls;
`c0` is the clock value at construction time. -/
def initRL (c0 : ℚ) : RLState := { calls := [], hist := [], lastReading := c0 }

/-- Number of recorded call timestamps inside the closed window
`[a, a + period]` of length `period`. -/
def windowCount (period : ℚ) (l : List ℚ) (a : ℚ) : Nat :=
  l.countP (fun x => decide (a ≤ x) && decide (x ≤ a + period))

/-- Number of recorded call timestamps inside the trailing half-open
window `(now - period, now]`: the calls a fresh call at time `now` would
share a length-`period` window with. -/
def trailingCount (period : ℚ) (l : List ℚ) (now : ℚ) : Nat :=
  l.countP (fun x => decide (now - period < x) && decide (x ≤ now))

/-- Execution invariant of the rate limiter: the history is strictly
increasing, the deque is a suffix of the history, history entries are no
later than the last clock reading, purged entries are expired relative to
the last reading, and every closed length-`period` window holds at most
`maxCalls` recorded timestamps. -/
def RLInv (maxCalls : Nat) (period : ℚ) (s : RLState) : Prop :=
  List.Sorted (· < ·) s.hist ∧
  s.calls <:+ s.hist ∧
  (∀ x ∈ s.hist, x ≤ s.lastReading) ∧
  (∀ x ∈ s.hist, x ∉ s.calls → x + period < s.lastReading) ∧
  (∀ a : ℚ, windowCount period s.hist a ≤ maxCalls)

/-- `StateManager._load_state` at the file level: a missing file or a
file whose contents fail to parse (`json.JSONDecodeError`) falls back to
the empty state rather than failing. -/
def load_state_file (content : Option String) (parse : String → Option SavedState) :
    ScraperState :=
  match content with
  | none => empty_state
  | some c =>
    match parse c with
    | some d => load_state d
    | none => empty_state

/- ------------------------------------------------------------------ -/
/- Checkpoint store lemmas.                                           -/
/- ------------------------------------------------------------------ -/

theorem getEntry_setEntry_self (ps : List (String × List String)) (p : String)
    (l : List String) : getEntry (setEntry ps p l) p = some l := by
  induction ps with
  | nil => simp [setEntry, getEntry]
  | cons e rest ih =>
    obtain ⟨q, m⟩ := e
    by_cases h : q = p
    · simp [setEntry, h, getEntry]
    · simp [setEntry, h, getEntry, ih]

theorem getEntry_append_none (ps qs : List (String × List String)) (p : String)
    (h : getEntry ps p = none) : getEntry (ps ++ qs) p = getEntry qs p := by
  induction ps with
  | nil => simp
  | cons e rest ih =>
    obtain ⟨q, m⟩ := e
    by_cases hq : q = p
    · simp [getEntry, hq] at h
    · simp only [getEntry, hq, if_neg, List.cons_append] at h ⊢
      simpa [hq] using ih h

theorem getEntry_ensureProject (ps : List (String × List String)) (p : String) :
    getEntry (ensureProject ps p) p = some ((getEntry ps p).getD []) := by
  unfold ensureProject
  cases h : getEntry ps p with
  | some l => simp [h]
  | none => simp [getEntry_append_none _ _ _ h, getEntry]

theorem mark_issue_scraped_of_mem (s : ScraperState) (p k : String)
    (h : k ∈ get_scraped_issues s p) : mark_issue_scraped s p k = s := by
  unfold get_scraped_issues at h
  cases hg : getEntry s.projects p with
  | none => rw [hg] at h; simp at h
  | some l =>
    rw [hg] at h
    simp only [Option.getD_some] at h
    simp [mark_issue_scraped, ensureProject, hg, h]

theorem get_scraped_issues_mark (s : ScraperState) (p k : String) :
    get_scraped_issues (mark_issue_scraped s p k) p
      = if k ∈ get_scraped_issues s p then get_scraped_issues s p
        else get_scraped_issues s p ++ [k] := by
  by_cases h : k ∈ get_scraped_issues s p
  · simp [h, mark_issue_scraped_of_mem s p k h]
  · have h' : k ∉ (getEntry (ensureProject s.projects p) p).getD [] := by
      rw [getEntry_ensureProject]
      simpa [get_scraped_issues] using h
    simp only [mark_issue_scraped, h', if_neg, not_false_iff]
    simp only [get_scraped_issues, getEntry_setEntry_self, getEntry_ensureProject,
      Option.getD_some]
    rw [if_neg (by simpa [get_scraped_issues] using h)]

theorem total_mark_of_not_mem (s : ScraperState) (p k : String)
    (h : k ∉ get_scraped_issues s p) :
    (mark_issue_scraped s p k).total_issues_scraped = s.total_issues_scraped + 1 := by
  have h' : k ∉ (getEntry (ensureProject s.projects p) p).getD [] := by
    rw [getEntry_ensureProject]
    simpa [get_scraped_issues] using h
  simp [mark_issue_scraped, h']

theorem mem_get_scraped_issues_mark (s : ScraperState) (p k : String) :
    k ∈ get_scraped_issues (mark_issue_scraped s p k) p := by
  rw [get_scraped_issues_mark]
  by_cases h : k ∈ get_scraped_issues s p <;> simp [h]

/-- C5: `mark_issue_scraped` is idempotent: a second call with the same
project and key is a no-op (so the scraped-key set of the project keeps
the same cardinality as after the first call), and when the key was fresh
the global `total_issues_scraped` counter is incremented exactly once
across both calls, not twice. -/
theorem mark_issue_scraped_idempotent (s : ScraperState) (p k : String) :
    mark_issue_scraped (mark_issue_scraped s p k) p k = mark_issue_scraped s p k ∧
    (get_scraped_issues (mark_issue_scraped (mark_issue_scraped s p k) p k) p).length
      = (get_scraped_issues (mark_issue_scraped s p k) p).length ∧
    (k ∉ get_scraped_issues s p →
      (mark_issue_scraped (mark_issue_scraped s p k) p k).total_issues_scraped
        = s.total_issues_scraped + 1) := by
  have hidem : mark_issue_scraped (mark_issue_scraped s p k) p k = mark_issue_scraped s p k :=
    mark_issue_scraped_of_mem _ p k (mem_get_scraped_issues_mark s p k)
  refine ⟨hidem, by rw [hidem], fun hk => ?_⟩
  rw [hidem, total_mark_of_not_mem s p k hk]

/-- Witness for C5 at a concrete state: a fresh key marked twice ends with
one copy in the scraped set and the counter incremented once. -/
theorem mark_issue_scraped_idempotent_witness :
    ("K-1" ∉ get_scraped_issues empty_state "P") ∧
    (mark_issue_scraped (mark_issue_scraped empty_state "P" "K-1") "P" "K-1"
        = mark_issue_scraped empty_state "P" "K-1" ∧
      (get_scraped_issues
          (mark_issue_scraped (mark_issue_scraped empty_state "P" "K-1") "P" "K-1") "P").length
        = (get_scraped_issues (mark_issue_scraped empty_state "P" "K-1") "P").length ∧
      ("K-1" ∉ get_scraped_issues empty_state "P" →
        (mark_issue_scraped (mark_issue_scraped empty_state "P" "K-1") "P" "K-1").total_issues_scraped
          = empty_state.total_issues_scraped + 1)) :=
  ⟨by decide, mark_issue_scraped_idempotent empty_state "P" "K-1"⟩

/-- C6: after `mark_project_completed p` the durable snapshot produced by
`save_state` reloads (via `_load_state`) to a state in which
`is_project_completed p` returns true. -/
theorem is_project_completed_after_reload (s : ScraperState) (p ts : String) :
    is_project_completed (load_state (save_state (mark_project_completed s p) ts)) p = true := by
  have hmem : p ∈ (mark_project_completed s p).completed_projects := by
    simp only [mark_project_completed]
    by_cases h : p ∈ s.completed_projects <;> simp [h]
  simp only [is_project_completed, load_state, save_state]
  exact List.contains_iff_exists_mem_beq.mpr ⟨p, hmem, by simp⟩

/-- C7 counterexample: `save_state` does not write-then-replace.  With the
state file holding a valid old snapshot, interrupting `save_state` right
after `open(..., 'w')` (the first of its two file operations) leaves the
durable file empty — not JSON-object shaped, hence unparseable — and the
operation sequence contains no rename at all, i.e. it writes the live file
in place. -/
theorem save_state_ops_unparseable_crash :
    applyFsOps (fun q => if q = "scraper_state.json" then some "\x7b\x7d" else none)
        ((save_state_ops "scraper_state.json" "\x7b \x7d").take 1) "scraper_state.json"
      = some ""
    ∧ isJsonObjectShaped "" = false
    ∧ (save_state_ops "scraper_state.json" "\x7b \x7d").all
        (fun op => match op with | .rename _ _ => false | _ => true) = true := by
  refine ⟨?_, ?_, ?_⟩ <;> decide

/-- C7 amended: `save_state` persists the checkpoint by truncating the
state file in place and then writing the fresh payload into it (no
temporary file, no atomic replace); completing both steps leaves the new
payload, but an interruption after the truncation leaves the file empty
and hence unparseable; `_load_state` tolerates such a file by starting
from the empty state. -/
theorem save_state_writes_in_place (path payload : String) (fs : String → Option String)
    (parse : String → Option SavedState) (hparse : parse "" = none) :
    save_state_ops path payload = [.truncOpen path, .writeAll path payload]
    ∧ applyFsOps fs (save_state_ops path payload) path = some payload
    ∧ applyFsOps fs ((save_state_ops path payload).take 1) path = some ""
    ∧ load_state_file (some "") parse = empty_state := by
  refine ⟨rfl, ?_, ?_, ?_⟩
  · simp [applyFsOps, save_state_ops, applyFsOp]
  · simp [applyFsOps, save_state_ops, applyFsOp]
  · simp [load_state_file, hparse]

/-- Witness for C7's amended statement at a concrete path, payload, file
system and parser. -/
theorem save_state_writes_in_place_witness :
    ((fun c => if c = "\x7b\x7d" then some (save_state empty_state "t") else none) "" =
        (none : Option SavedState))
    ∧ (save_state_ops "scraper_state.json" "\x7b1\x7d"
          = [.truncOpen "scraper_state.json", .writeAll "scraper_state.json" "\x7b1\x7d"]
      ∧ applyFsOps (fun _ => none) (save_state_ops "scraper_state.json" "\x7b1\x7d")
          "scraper_state.json" = some "\x7b1\x7d"
      ∧ applyFsOps (fun _ => none)
          ((save_state_ops "scraper_state.json" "\x7b1\x7d").take 1) "scraper_state.json"
          = some ""
      ∧ load_state_file (some "")
          (fun c => if c = "\x7b\x7d" then some (save_state empty_state "t") else none) = empty_state) :=
  ⟨by decide,
   save_state_writes_in_place "scraper_state.json" "\x7b1\x7d" (fun _ => none)
     (fun c => if c = "\x7b\x7d" then some (save_state empty_state "t") else none) (by decide)⟩

/- Lemmas for the global-counter invariant (C10). -/

theorem projectsTotal_ensureProject (ps : List (String × List String)) (p : String) :
    projectsTotal (ensureProject ps p) = projectsTotal ps := by
  unfold ensureProject
  cases h : getEntry ps p <;> simp [projectsTotal]

theorem projectsTotal_setEntry_concat (ps : List (String × List String)) (p k : String)
    (l : List String) (h : getEntry ps p = some l) :
    projectsTotal (setEntry ps p (l ++ [k])) = projectsTotal ps + 1 := by
  induction ps with
  | nil => simp [getEntry] at h
  | cons e rest ih =>
    obtain ⟨q, m⟩ := e
    by_cases hq : q = p
    · simp only [getEntry, hq, if_pos, Option.some.injEq] at h
      subst h
      simp [setEntry, hq, projectsTotal]
      omega
    · simp only [getEntry, hq, if_neg, not_false_iff] at h
      simp [setEntry, hq, projectsTotal] at ih ⊢
      have hih := ih h
      omega

theorem mem_setEntry (ps : List (String × List String)) (p : String) (l : List String)
    (e : String × List String) (he : e ∈ setEntry ps p l) : e = (p, l) ∨ e ∈ ps := by
  induction ps with
  | nil => simpa [setEntry] using he
  | cons f rest ih =>
    obtain ⟨q, m⟩ := f
    by_cases hq : q = p
    · simp only [setEntry, hq, if_pos] at he
      rcases List.mem_cons.mp he with h | h
      · exact Or.inl h
      · exact Or.inr (List.mem_cons_of_mem _ h)
    · simp only [setEntry, hq, if_neg, not_false_iff] at he
      rcases List.mem_cons.mp he with h | h
      · exact Or.inr (by simp [h])
      · rcases ih h with h' | h'
        · exact Or.inl h'
        · exact Or.inr (List.mem_cons_of_mem _ h')

theorem mem_ensureProject (ps : List (String × List String)) (p : String)
    (e : String × List String) (he : e ∈ ensureProject ps p) : e ∈ ps ∨ e = (p, []) := by
  unfold ensureProject at he
  cases h : getEntry ps p with
  | some l => rw [h] at he; exact Or.inl he
  | none =>
    rw [h] at he
    rcases List.mem_append.mp he with h' | h'
    · exact Or.inl h'
    · exact Or.inr (by simpa using h')

theorem getEntry_mem (ps : List (String × List String)) (p : String) (l : List String)
    (h : getEntry ps p = some l) : (p, l) ∈ ps := by
  induction ps with
  | nil => simp [getEntry] at h
  | cons e rest ih =>
    obtain ⟨q, m⟩ := e
    by_cases hq : q = p
    · simp only [getEntry, hq, if_pos, Option.some.injEq] at h
      simp [hq, h]
    · simp only [getEntry, hq, if_neg, not_false_iff] at h
      exact List.mem_cons_of_mem _ (ih h)

theorem ckpt_inv_step (s : ScraperState) (op : CheckpointOp)
    (hnd : ∀ e ∈ s.projects, e.2.Nodup)
    (ht : s.total_issues_scraped = projectsTotal s.projects) :
    (∀ e ∈ (applyCkptOp s op).projects, e.2.Nodup) ∧
    (applyCkptOp s op).total_issues_scraped = projectsTotal (applyCkptOp s op).projects := by
  cases op with
  | markProject p => exact ⟨hnd, ht⟩
  | markIssue p k =>
    have hnd1 : ∀ e ∈ ensureProject s.projects p, e.2.Nodup := by
      intro e he
      rcases mem_ensureProject s.projects p e he with h | h
      · exact hnd e h
      · simp [h]
    have hg : getEntry (ensureProject s.projects p) p
        = some ((getEntry s.projects p).getD []) := getEntry_ensureProject s.projects p
    have hXnd : ((getEntry s.projects p).getD []).Nodup :=
      hnd1 _ (getEntry_mem _ _ _ hg)
    by_cases hmem : k ∈ (getEntry (ensureProject s.projects p) p).getD []
    · simp only [applyCkptOp, mark_issue_scraped, hmem, if_pos]
      exact ⟨hnd1, by rw [ht, projectsTotal_ensureProject]⟩
    · simp only [applyCkptOp, mark_issue_scraped, hmem, if_neg, not_false_iff]
      constructor
      · intro e he
        rcases mem_setEntry _ _ _ _ he with h | h
        · rw [hg] at h
          subst h
          simp only [Option.getD_some]
          rw [hg] at hmem
          simp only [Option.getD_some] at hmem
          simp [List.nodup_append, hXnd, hmem]
        · exact hnd1 e h
      · rw [hg] at hmem ⊢
        simp only [Option.getD_some] at hmem ⊢
        rw [projectsTotal_setEntry_concat _ _ _ _ hg, ht, projectsTotal_ensureProject]

theorem ckpt_inv_applyOps (s : ScraperState) (ops : List CheckpointOp)
    (hnd : ∀ e ∈ s.projects, e.2.Nodup)
    (ht : s.total_issues_scraped = projectsTotal s.projects) :
    (∀ e ∈ (applyCkptOps s ops).projects, e.2.Nodup) ∧
    (applyCkptOps s ops).total_issues_scraped
      = projectsTotal (applyCkptOps s ops).projects := by
  induction ops generalizing s with
  | nil => exact ⟨hnd, ht⟩
  | cons op rest ih =>
    have hstep := ckpt_inv_step s op hnd ht
    exact ih (applyCkptOp s op) hstep.1 hstep.2

/-- C10: starting from the empty checkpoint state, after any sequence of
`mark_issue_scraped` and `mark_project_completed` calls the global
`total_issues_scraped` counter equals the sum over all projects of the
number of distinct scraped issue keys recorded for that project. -/
theorem total_issues_scraped_counts_distinct_keys (ops : List CheckpointOp) :
    (applyCkptOps empty_state ops).total_issues_scraped
      = projectsDistinctTotal (applyCkptOps empty_state ops).projects := by
  obtain ⟨hnd, ht⟩ := ckpt_inv_applyOps empty_state ops
    (by simp [empty_state]) (by simp [empty_state, projectsTotal])
  rw [ht]
  unfold projectsTotal projectsDistinctTotal
  congr 1
  apply List.map_congr_left
  intro e he
  rw [List.dedup_eq_self.mpr (hnd e he)]

/- ------------------------------------------------------------------ -/
/- Retry policy theorems.                                             -/
/- ------------------------------------------------------------------ -/

/-- C2 (evaluation at the failing input): an operation that always fails
with a fatal, non-retryable error — HTTP 400, for which
`is_retryable_error` is false — is nevertheless invoked
`max_retries + 1 = 6` times by `retry_with_backoff` with its default
configuration, not exactly once: the decorator's retry condition is
`retry_if_exception_type(RequestException)`, which matches the 4xx
`HTTPError` that the inner wrapper re-raises on its "don't retry" branch. -/
theorem fatal_client_error_retried_six_times :
    is_retryable_error (.httpError (some 400)) = false
    ∧ (retry_with_backoff defaultRetryConfig
        (fun _ => (.error (.httpError (some 400)) : Except ReqError Unit))).attempts = 6
    ∧ (retry_with_backoff defaultRetryConfig
        (fun _ => (.error (.httpError (some 400)) : Except ReqError Unit))).result
      = .error (.httpError (some 400)) := by
  refine ⟨rfl, ?_, ?_⟩ <;> rfl

theorem tenacityRun_retryable_then_ok (cfg : RetryConfig) (op : Nat → Except ReqError α)
    (v : α) (k : Nat) :
    ∀ n fuel, k < fuel →
    (∀ j, j < k → ∃ e, op (n + j) = .error e) →
    op (n + k) = .ok v →
    tenacityRun cfg op n fuel
      = { result := .ok v, attempts := k + 1,
          delays := (List.range k).map (fun i => waitExponential cfg (n + i + 1)) } := by
  induction k with
  | zero =>
    intro n fuel hfuel _ hok
    obtain ⟨f, rfl⟩ : ∃ f, fuel = f + 1 := ⟨fuel - 1, by omega⟩
    simp only [Nat.add_zero] at hok
    simp [tenacityRun, hok]
  | succ k ih =>
    intro n fuel hfuel hfail hok
    obtain ⟨f, rfl⟩ : ∃ f, fuel = f + 1 := ⟨fuel - 1, by omega⟩
    obtain ⟨e, he⟩ := hfail 0 (Nat.succ_pos k)
    rw [Nat.add_zero] at he
    have hf : f ≠ 0 := by omega
    have hrest := ih (n + 1) f (by omega)
      (fun j hj => by
        obtain ⟨e', he'⟩ := hfail (j + 1) (by omega)
        exact ⟨e', by rw [← he']; congr 1; omega⟩)
      (by rw [← hok]; congr 1; omega)
    have hdel : waitExponential cfg (n + 1)
          :: (List.range k).map (fun i => waitExponential cfg (n + 1 + i + 1))
        = (List.range (k + 1)).map (fun i => waitExponential cfg (n + i + 1)) := by
      rw [List.range_succ_eq_map, List.map_cons, List.map_map]
      refine congrArg₂ _ (by norm_num) (List.map_congr_left fun i _ => ?_)
      simp only [Function.comp_apply]
      congr 1
      omega
    simp only [tenacityRun, he]
    rw [if_neg (by simp [tenacityRetriesOn]), if_neg hf]
    simp only [hrest, hdel]

/-- C3: an operation that fails with a retryable error on exactly `k`
attempts, `k < maxRetries`, and then succeeds is invoked exactly `k + 1`
times by `retry_with_backoff`, and the delay slept before the `i`-th
retry (retries numbered from 0, matching §4.2's `base^attempt`) is
`min(maxDelay, initialDelay * base^i)`. -/
theorem retry_with_backoff_retryable_then_success (cfg : RetryConfig)
    (op : Nat → Except ReqError α) (v : α) (k : Nat) (errs : Nat → ReqError)
    (hk : k < cfg.maxRetries)
    (hfail : ∀ j, j < k → op j = .error (errs j))
    (hretry : ∀ j, j < k → is_retryable_error (errs j) = true)
    (hok : op k = .ok v)
    (hd : 0 ≤ cfg.initialDelay) (hm : 0 ≤ cfg.maxDelay) (hb : 0 ≤ cfg.base) :
    retry_with_backoff cfg op
      = { result := .ok v, attempts := k + 1,
          delays := (List.range k).map
            (fun i => min cfg.maxDelay (cfg.initialDelay * cfg.base ^ i)) } := by
  have hrun := tenacityRun_retryable_then_ok cfg op v k 0 (cfg.maxRetries + 1) (by omega)
    (fun j hj => ⟨errs j, by simpa using hfail j hj⟩) (by simpa using hok)
  rw [retry_with_backoff, hrun]
  refine congrArg _ (List.map_congr_left fun i _ => ?_)
  unfold waitExponential
  have hidx : 0 + i + 1 - 1 = i := by omega
  rw [hidx, max_eq_right (le_min (mul_nonneg hd (pow_nonneg hb i)) hm), min_comm]

/-- Witness for C3: with the default configuration, an operation timing
out twice and then succeeding is attempted 3 times with delays 1 and 2
seconds, matching `min(60, 1 * 2^i)` for `i = 0, 1`. -/
theorem retry_with_backoff_retryable_then_success_witness :
    retry_with_backoff defaultRetryConfig
        (fun n => if n < 2 then (.error .timeout : Except ReqError Unit) else .ok ())
      = { result := .ok (), attempts := 3,
          delays := (List.range 2).map
            (fun i => min defaultRetryConfig.maxDelay
              (defaultRetryConfig.initialDelay * defaultRetryConfig.base ^ i)) } :=
  retry_with_backoff_retryable_then_success defaultRetryConfig _ () 2 (fun _ => .timeout)
    (by decide) (fun j hj => by simp [hj]) (fun j _ => rfl) (by norm_num)
    (by norm_num [defaultRetryConfig]) (by norm_num [defaultRetryConfig])
    (by norm_num [defaultRetryConfig])

/- ------------------------------------------------------------------ -/
/- Orchestrator theorems.                                             -/
/- ------------------------------------------------------------------ -/

/-- C1 counterexample: for a fresh, successfully enriched issue the
per-issue step of `scrape_project` marks the issue scraped in the
checkpoint strictly *before* yielding it to the consumer — marking does
not happen after emission as claimed, so the trace is not
fetch/build/emit/mark. -/
theorem mark_scraped_before_emit :
    (process_issue (fun _ => true) [] "SPARK-1").1
      = [.fetchComments "SPARK-1", .buildEnriched "SPARK-1",
         .markScraped "SPARK-1", .emit "SPARK-1"]
    ∧ (process_issue (fun _ => true) [] "SPARK-1").1.indexOf (.markScraped "SPARK-1")
        < (process_issue (fun _ => true) [] "SPARK-1").1.indexOf (.emit "SPARK-1") := by
  exact ⟨rfl, by decide⟩

/-- C1 amended: for every unseen issue whose enrichment succeeds, the
per-issue order of operations is fetch comments, build the enriched
record, mark it scraped in the checkpoint, and only then emit it to the
collaborator; an interruption before the mark leaves the issue unmarked,
but an interruption between marking and consumption can leave it
marked-but-unemitted. -/
theorem process_issue_order (enrichOk : String → Bool) (scraped : List String)
    (key : String) (hfresh : key ∉ scraped) (hok : enrichOk key = true) :
    (process_issue enrichOk scraped key).1
      = [.fetchComments key, .buildEnriched key, .markScraped key, .emit key] := by
  simp [process_issue, hfresh, hok]

/-- Witness for C1's amended statement at a concrete issue. -/
theorem process_issue_order_witness :
    ("SPARK-2" ∉ ([] : List String)) ∧
    (process_issue (fun _ => true) [] "SPARK-2").1
      = [.fetchComments "SPARK-2", .buildEnriched "SPARK-2",
         .markScraped "SPARK-2", .emit "SPARK-2"] :=
  ⟨by decide, process_issue_order (fun _ => true) [] "SPARK-2" (by decide) rfl⟩

/-- C9 counterexample: with safety cap 1 and a single page of two fresh
issues, `scrape_project` enriches and emits both — the cap is only
checked at page boundaries, so the number of issues processed for the
project exceeds the configured cap. -/
theorem cap_exceeded_within_page :
    1 < (scrape_project
        (fun s => if s = 0 then ⟨["KAFKA-1", "KAFKA-2"], 2, 0⟩ else ⟨[], 0, s⟩)
        (fun _ => true) [] 1 3 0).2.1.length := by
  decide

theorem process_page_emitted_le (enrichOk : String → Bool) (scraped : List String)
    (keys : List String) :
    (process_page enrichOk scraped keys).2.length ≤ keys.length := by
  induction keys with
  | nil => simp [process_page]
  | cons k rest ih =>
    simp only [process_page, List.length_append, List.length_cons]
    split_ifs <;> simp <;> omega

/-- C9 amended: the cap is enforced only between pages — a fresh page is
fetched only while the running `scraped_count` is still below
`MAX_ISSUES_PER_PROJECT`, but every issue of an already-fetched page is
processed.  Hence, when every listing response holds at most `P` issues,
a project entered with running count `c0` emits at most
`max (cap - c0) 1 + P - 1` issues in one run (for `c0 = 0`:
at most `cap + P - 1`), rather than at most `cap`. -/
theorem scrape_loop_emitted_bound (server : Nat → PageResponse)
    (enrichOk : String → Bool) (scraped : List String) (cap P fuel startAt c0 : Nat)
    (hP : ∀ s, (server s).issues.length ≤ P) :
    (scrape_loop server enrichOk scraped cap fuel startAt c0).2.1.length
      ≤ max (cap - c0) 1 + P - 1 := by
  induction fuel generalizing startAt c0 with
  | zero =>
    have h1 := le_max_right (cap - c0) 1
    simp [scrape_loop]
  | succ fuel ih =>
    have h1 := le_max_right (cap - c0) 1
    have ha := process_page_emitted_le enrichOk scraped (server startAt).issues
    have haP := hP startAt
    simp only [scrape_loop]
    split_ifs with hempty hdone hcapped
    · simp
    · dsimp only
      omega
    · dsimp only
      omega
    · dsimp only
      simp only [List.length_append]
      have hlt : c0 + (process_page enrichOk scraped (server startAt).issues).2.length
          < cap := by omega
      have hb := ih ((server startAt).startAt + (server startAt).issues.length)
        (c0 + (process_page enrichOk scraped (server startAt).issues).2.length)
      rw [Nat.max_eq_left (by omega)] at hb ⊢
      omega

/-- Witness for C9's amended bound at the counterexample's inputs:
cap 1, pages of at most 2 issues, so at most `max (1-0) 1 + 2 - 1 = 2`
issues are emitted. -/
theorem scrape_loop_emitted_bound_witness :
    (scrape_loop
        (fun s => if s = 0 then ⟨["KAFKA-1", "KAFKA-2"], 2, 0⟩ else ⟨[], 0, s⟩)
        (fun _ => true) [] 1 3 0 0).2.1.length ≤ max (1 - 0) 1 + 2 - 1 :=
  scrape_loop_emitted_bound
    (fun s => if s = 0 then ⟨["KAFKA-1", "KAFKA-2"], 2, 0⟩ else ⟨[], 0, s⟩)
    (fun _ => true) [] 1 2 3 0 0
    (fun s => by by_cases h : s = 0 <;> simp [h])

/-- C8: when the comment endpoint answers a request with HTTP 404,
`_make_request` translates it to a successful empty document instead of
surfacing an error, `get_issue_comments` returns the empty list, the
enriched issue carries an empty comment sequence, and the per-issue step
still marks such an issue scraped in the checkpoint. -/
theorem comment_fetch_404_yields_empty_issue (cfg : RetryConfig)
    (responses : Nat → HttpResponse × HttpResponse) (key : String) (raw : RawIssue)
    (enrichOk : String → Bool) (scraped : List String)
    (h404 : (responses 0).1.status = 404)
    (hfresh : key ∉ scraped) (hok : enrichOk key = true) :
    (retry_with_backoff cfg
        (fun n => make_request (responses n).1 (responses n).2)).result = .ok none
    ∧ get_issue_comments cfg responses = []
    ∧ (enrich_issue key raw (get_issue_comments cfg responses)).comments = []
    ∧ ScrapeEvent.markScraped key ∈ (process_issue enrichOk scraped key).1 := by
  have hmr : make_request (responses 0).1 (responses 0).2 = .ok none := by
    simp [make_request, h404]
  have hrun := tenacityRun_retryable_then_ok cfg
    (fun n => make_request (responses n).1 (responses n).2) none 0 0 (cfg.maxRetries + 1)
    (by omega) (fun j hj => absurd hj (by omega)) (by simpa using hmr)
  have hres : (retry_with_backoff cfg
      (fun n => make_request (responses n).1 (responses n).2)).result = .ok none := by
    rw [retry_with_backoff, hrun]
  have hcomments : get_issue_comments cfg responses = [] := by
    rw [get_issue_comments, hres]
    rfl
  refine ⟨hres, hcomments, ?_, ?_⟩
  · rw [hcomments]
    rfl
  · simp [process_issue, hfresh, hok]

/-- Witness for C8 at a concrete 404 response, issue and state. -/
theorem comment_fetch_404_yields_empty_issue_witness :
    ((fun _ : Nat => ((⟨404, none⟩ : HttpResponse), (⟨404, none⟩ : HttpResponse))) 0).1.status
        = 404
    ∧ ((retry_with_backoff defaultRetryConfig
          (fun n => make_request
            ((fun _ : Nat => ((⟨404, none⟩ : HttpResponse), (⟨404, none⟩ : HttpResponse))) n).1
            ((fun _ : Nat => ((⟨404, none⟩ : HttpResponse), (⟨404, none⟩ : HttpResponse))) n).2)).result
        = .ok none
      ∧ get_issue_comments defaultRetryConfig
          (fun _ => (⟨404, none⟩, ⟨404, none⟩)) = []
      ∧ (enrich_issue "HADOOP-7" ⟨none, none⟩
          (get_issue_comments defaultRetryConfig
            (fun _ => (⟨404, none⟩, ⟨404, none⟩)))).comments = []
      ∧ ScrapeEvent.markScraped "HADOOP-7" ∈ (process_issue (fun _ => true) [] "HADOOP-7").1) :=
  ⟨rfl,
   comment_fetch_404_yields_empty_issue defaultRetryConfig
     (fun _ => (⟨404, none⟩, ⟨404, none⟩)) "HADOOP-7" ⟨none, none⟩
     (fun _ => true) [] rfl (by decide) rfl⟩

/- ------------------------------------------------------------------ -/
/- Rate limiter lemmas.                                               -/
/- ------------------------------------------------------------------ -/

theorem pruneCalls_suffix (period now : ℚ) (calls : List ℚ) :
    pruneCalls period now calls <:+ calls :=
  List.dropWhile_suffix _

theorem mem_pruneCalls_lower (period now : ℚ) (calls : List ℚ)
    (hs : List.Sorted (· < ·) calls) (x : ℚ) (hx : x ∈ pruneCalls period now calls) :
    now - period ≤ x := by
  induction calls with
  | nil => simp [pruneCalls] at hx
  | cons c rest ih =>
    rw [List.sorted_cons] at hs
    by_cases hc : c < now - period
    · rw [pruneCalls, List.dropWhile_cons, if_pos (by simpa using hc)] at hx
      exact ih hs.2 hx
    · rw [pruneCalls, List.dropWhile_cons, if_neg (by simpa using hc)] at hx
      rcases List.mem_cons.mp hx with h | h
      · subst h; linarith [not_lt.mp hc]
      · have := hs.1 x h
        linarith [not_lt.mp hc]

theorem mem_of_not_mem_pruneCalls (period now : ℚ) (calls : List ℚ) (x : ℚ)
    (hx : x ∈ calls) (hnx : x ∉ pruneCalls period now calls) : x < now - period := by
  have hsplit := List.takeWhile_append_dropWhile
    (p := fun c => decide (c < now - period)) (l := calls)
  rw [← hsplit] at hx
  rcases List.mem_append.mp hx with h | h
  · simpa using List.mem_takeWhile_imp h
  · exact absurd h hnx

theorem countP_eq_countP_of_suffix (p : ℚ → Bool) (l sub : List ℚ)
    (hsuf : sub <:+ l) (hnd : l.Nodup) (hall : ∀ x ∈ l, p x = true → x ∈ sub) :
    l.countP p = sub.countP p := by
  obtain ⟨u, rfl⟩ := hsuf
  rw [List.countP_append]
  have hdisj := List.disjoint_of_nodup_append hnd
  have hz : u.countP p = 0 := by
    rw [List.countP_eq_zero]
    intro a ha hpa
    exact hdisj ha (hall a (List.mem_append_left _ ha) hpa)
  omega

theorem pruned_length_le (mc : Nat) (period : ℚ) (s : RLState) (now1 : ℚ)
    (hinv : RLInv mc period s) (hlast : s.lastReading < now1) :
    (pruneCalls period now1 s.calls).length ≤ mc := by
  obtain ⟨hsort, hsuf, hle, _, hW⟩ := hinv
  have hcs_suf : pruneCalls period now1 s.calls <:+ s.hist :=
    (pruneCalls_suffix _ _ _).trans hsuf
  have hsort_calls : List.Sorted (· < ·) s.calls :=
    List.Pairwise.sublist hsuf.sublist hsort
  have hcount : (pruneCalls period now1 s.calls).countP
      (fun x => decide (now1 - period ≤ x) && decide (x ≤ now1 - period + period))
      = (pruneCalls period now1 s.calls).length := by
    rw [List.countP_eq_length]
    intro x hx
    have h1 : now1 - period ≤ x := mem_pruneCalls_lower _ _ _ hsort_calls x hx
    have h2 : x ≤ s.lastReading := hle x (hcs_suf.subset hx)
    have h3 : x ≤ now1 - period + period := by linarith
    simp only [Bool.and_eq_true, decide_eq_true_eq]
    exact ⟨h1, h3⟩
  calc (pruneCalls period now1 s.calls).length
      = (pruneCalls period now1 s.calls).countP _ := hcount.symm
    _ ≤ s.hist.countP
        (fun x => decide (now1 - period ≤ x) && decide (x ≤ now1 - period + period)) :=
        List.Sublist.countP_le _ hcs_suf.sublist
    _ ≤ mc := hW (now1 - period)

theorem RLInv_append (mc : Nat) (period : ℚ) (hist csF : List ℚ) (last t : ℚ)
    (hmc : 1 ≤ mc)
    (hsort : List.Sorted (· < ·) hist)
    (hsufF : csF <:+ hist)
    (hle : ∀ x ∈ hist, x ≤ last)
    (hlastt : last < t)
    (hstaleF : ∀ x ∈ hist, x ∉ csF → x + period < t)
    (hW : ∀ a, windowCount period hist a ≤ mc)
    (hcnt : csF.countP (fun x => decide (t - period ≤ x)) ≤ mc - 1) :
    RLInv mc period ⟨csF ++ [t], hist ++ [t], t⟩ := by
  have hhist_lt : ∀ x ∈ hist, x < t := fun x hx => lt_of_le_of_lt (hle x hx) hlastt
  refine ⟨?_, ?_, ?_, ?_, ?_⟩
  · rw [List.Sorted, List.pairwise_append]
    exact ⟨hsort, List.pairwise_singleton _ _,
      fun a ha b hb => by rw [List.mem_singleton] at hb; subst hb; exact hhist_lt a ha⟩
  · obtain ⟨u, rfl⟩ := hsufF
    exact ⟨u, (List.append_assoc u csF [t]).symm⟩
  · intro x hx
    rcases List.mem_append.mp hx with h | h
    · exact le_of_lt (hhist_lt x h)
    · rw [List.mem_singleton] at h; subst h; exact le_refl _
  · intro x hx hnx
    rcases List.mem_append.mp hx with h | h
    · refine hstaleF x h (fun hc => hnx (List.mem_append_left _ hc))
    · exact absurd (List.mem_append_right _ h) hnx
  · intro a
    rw [windowCount, List.countP_append]
    by_cases hpt : (decide (a ≤ t) && decide (t ≤ a + period)) = true
    · have hmono : hist.countP (fun x => decide (a ≤ x) && decide (x ≤ a + period))
          ≤ hist.countP (fun x => decide (t - period ≤ x)) := by
        refine List.countP_mono_left (fun x _ hx => ?_)
        simp only [Bool.and_eq_true, decide_eq_true_eq] at hx hpt ⊢
        linarith [hx.1, hpt.2]
      have heq : hist.countP (fun x => decide (t - period ≤ x))
          = csF.countP (fun x => decide (t - period ≤ x)) := by
        refine countP_eq_countP_of_suffix _ _ _ hsufF hsort.nodup (fun x hx hpx => ?_)
        by_contra hnx
        have := hstaleF x hx hnx
        simp only [decide_eq_true_eq] at hpx
        linarith
      have h1 : List.countP (fun x => decide (a ≤ x) && decide (x ≤ a + period)) [t] ≤ 1 := by
        simpa using List.countP_le_length
          (p := fun x => decide (a ≤ x) && decide (x ≤ a + period)) (l := [t])
      have h2 := hW a
      rw [windowCount] at h2
      omega
    · have hzero : List.countP (fun x => decide (a ≤ x) && decide (x ≤ a + period)) [t] = 0 := by
        simp only [List.countP_cons, List.countP_nil, Nat.zero_add]
        simp [hpt]
      rw [hzero]
      simpa [windowCount] using hW a

theorem RLInv_wait_if_needed (mc : Nat) (period : ℚ) (s : RLState) (c : CallTimes)
    (hmc : 1 ≤ mc) (hinv : RLInv mc period s) (hvc : validCall mc period s c = true) :
    RLInv mc period (wait_if_needed mc period s c) := by
  obtain ⟨hsort, hsuf, hle, hstale, hW⟩ := hinv
  rw [validCall, Bool.and_eq_true] at hvc
  obtain ⟨hlastb, hrest⟩ := hvc
  have hlast : s.lastReading < c.now1 := of_decide_eq_true hlastb
  have hlen := pruned_length_le mc period s c.now1 ⟨hsort, hsuf, hle, hstale, hW⟩ hlast
  have hsort_calls : List.Sorted (· < ·) s.calls :=
    List.Pairwise.sublist hsuf.sublist hsort
  have hcs_suf : pruneCalls period c.now1 s.calls <:+ s.hist :=
    (pruneCalls_suffix _ _ _).trans hsuf
  by_cases hsleep : sleepsAt mc period s.calls c.now1 = true
  · rw [if_pos hsleep] at hrest
    rw [Bool.and_eq_true] at hrest
    have hnow2 : (pruneCalls period c.now1 s.calls).headD 0 + period ≤ c.now2 :=
      of_decide_eq_true hrest.1
    have ht2 : c.now2 < c.tNew := of_decide_eq_true hrest.2
    have hsleep' := hsleep
    simp only [sleepsAt, Bool.and_eq_true, decide_eq_true_eq] at hsleep'
    obtain ⟨hq, hpos⟩ := hsleep'
    have hne : pruneCalls period c.now1 s.calls ≠ [] := by
      intro hnil
      rw [hnil] at hq
      simp at hq
      omega
    obtain ⟨h, tl, hcons⟩ := List.exists_cons_of_ne_nil hne
    have hheadD : (pruneCalls period c.now1 s.calls).headD 0 = h := by rw [hcons]; rfl
    rw [hheadD] at hnow2 hpos
    have hn1t : c.now1 < c.tNew := by linarith
    rw [wait_if_needed, if_pos hsleep]
    refine RLInv_append mc period s.hist _ s.lastReading c.tNew hmc hsort
      ((pruneCalls_suffix _ _ _).trans hcs_suf) hle (by linarith) ?_ hW ?_
    · intro x hx hnx
      by_cases hxc : x ∈ s.calls
      · by_cases hxcs : x ∈ pruneCalls period c.now1 s.calls
        · have := mem_of_not_mem_pruneCalls period c.now2 _ x hxcs hnx
          linarith
        · have := mem_of_not_mem_pruneCalls period c.now1 s.calls x hxc hxcs
          linarith
      · have := hstale x hx hxc
        linarith
    · have hsub : List.Sublist
          (pruneCalls period c.now2 (pruneCalls period c.now1 s.calls))
          (pruneCalls period c.now1 s.calls) := (pruneCalls_suffix _ _ _).sublist
      have hcs : (pruneCalls period c.now1 s.calls).countP
          (fun x => decide (c.tNew - period ≤ x)) ≤ mc - 1 := by
        rw [hcons, List.countP_cons]
        have hph : (decide (c.tNew - period ≤ h) : Bool) = false := by
          simp only [decide_eq_false_iff_not, not_le]
          linarith
        rw [hph]
        simp only [Bool.false_eq_true, if_false]
        have htl : tl.countP (fun x => decide (c.tNew - period ≤ x)) ≤ tl.length :=
          List.countP_le_length _
        have hlentl : tl.length + 1 = (pruneCalls period c.now1 s.calls).length := by
          rw [hcons]; rfl
        omega
      exact le_trans (List.Sublist.countP_le _ hsub) hcs
  · have hns := eq_false_of_ne_true hsleep
    rw [if_neg hsleep] at hrest
    have hn1t : c.now1 < c.tNew := of_decide_eq_true hrest
    rw [wait_if_needed, if_neg hsleep]
    refine RLInv_append mc period s.hist _ s.lastReading c.tNew hmc hsort
      hcs_suf hle (by linarith) ?_ hW ?_
    · intro x hx hnx
      by_cases hxc : x ∈ s.calls
      · have := mem_of_not_mem_pruneCalls period c.now1 s.calls x hxc hnx
        linarith
      · have := hstale x hx hxc
        linarith
    · by_cases hq : mc ≤ (pruneCalls period c.now1 s.calls).length
      · simp only [sleepsAt, Bool.and_eq_true, decide_eq_true_eq, not_and] at hsleep
        have hnotpos := hsleep hq
        have hne : pruneCalls period c.now1 s.calls ≠ [] := by
          intro hnil
          rw [hnil] at hq
          simp at hq
          omega
        obtain ⟨h, tl, hcons⟩ := List.exists_cons_of_ne_nil hne
        have hheadD : (pruneCalls period c.now1 s.calls).headD 0 = h := by rw [hcons]; rfl
        rw [hheadD] at hnotpos
        have hh1 : h + period ≤ c.now1 := by linarith [not_lt.mp hnotpos]
        rw [hcons, List.countP_cons]
        have hph : (decide (c.tNew - period ≤ h) : Bool) = false := by
          simp only [decide_eq_false_iff_not, not_le]
          linarith
        rw [hph]
        simp only [Bool.false_eq_true, if_false]
        have htl : tl.countP (fun x => decide (c.tNew - period ≤ x)) ≤ tl.length :=
          List.countP_le_length _
        have hlentl : tl.length + 1 = (pruneCalls period c.now1 s.calls).length := by
          rw [hcons]; rfl
        omega
      · exact le_trans (List.countP_le_length _) (by omega)

theorem sleepsAt_iff_trailing (mc : Nat) (period : ℚ) (s : RLState) (now1 : ℚ)
    (hmc : 1 ≤ mc) (hinv : RLInv mc period s) (hlast : s.lastReading < now1) :
    (sleepsAt mc period s.calls now1 = true ↔ mc ≤ trailingCount period s.hist now1) := by
  obtain ⟨hsort, hsuf, hle, hstale, hW⟩ := hinv
  have hlen := pruned_length_le mc period s now1 ⟨hsort, hsuf, hle, hstale, hW⟩ hlast
  have hsort_calls : List.Sorted (· < ·) s.calls :=
    List.Pairwise.sublist hsuf.sublist hsort
  have hcs_suf : pruneCalls period now1 s.calls <:+ s.hist :=
    (pruneCalls_suffix _ _ _).trans hsuf
  have heq : trailingCount period s.hist now1
      = (pruneCalls period now1 s.calls).countP
          (fun x => decide (now1 - period < x) && decide (x ≤ now1)) := by
    rw [trailingCount]
    refine countP_eq_countP_of_suffix _ _ _ hcs_suf hsort.nodup ?_
    intro x hx hpx
    simp only [Bool.and_eq_true, decide_eq_true_eq] at hpx
    by_contra hnx
    by_cases hxc : x ∈ s.calls
    · have := mem_of_not_mem_pruneCalls period now1 s.calls x hxc hnx
      linarith [hpx.1]
    · have := hstale x hx hxc
      linarith [hpx.1]
  cases hcons : pruneCalls period now1 s.calls with
  | nil =>
    constructor
    · intro hsl
      simp only [sleepsAt, hcons, Bool.and_eq_true, decide_eq_true_eq,
        List.length_nil] at hsl
      omega
    · intro hcount
      rw [heq, hcons] at hcount
      simp only [List.countP_nil] at hcount
      omega
  | cons h tl =>
    have hmemh : h ∈ pruneCalls period now1 s.calls := by
      rw [hcons]; exact List.mem_cons_self _ _
    have hhlow : now1 - period ≤ h := mem_pruneCalls_lower _ _ _ hsort_calls h hmemh
    have hall_le : ∀ x ∈ pruneCalls period now1 s.calls, x ≤ now1 := fun x hx =>
      le_of_lt (lt_of_le_of_lt (hle x (hcs_suf.subset hx)) hlast)
    have hsort_cs : List.Sorted (· < ·) (h :: tl) :=
      hcons ▸ List.Pairwise.sublist (pruneCalls_suffix _ _ _).sublist hsort_calls
    have htl_pred : ∀ x ∈ tl, (decide (now1 - period < x) && decide (x ≤ now1)) = true := by
      intro x hx
      have hgt : h < x := (List.sorted_cons.mp hsort_cs).1 x hx
      have hxle : x ≤ now1 := hall_le x (by rw [hcons]; exact List.mem_cons_of_mem _ hx)
      simp only [Bool.and_eq_true, decide_eq_true_eq]
      exact ⟨by linarith, hxle⟩
    have htl_count : tl.countP (fun x => decide (now1 - period < x) && decide (x ≤ now1))
        = tl.length := List.countP_eq_length.mpr htl_pred
    have hlen' : tl.length + 1 ≤ mc := by
      have : (pruneCalls period now1 s.calls).length = tl.length + 1 := by
        rw [hcons]; rfl
      omega
    by_cases hh : now1 - period < h
    · have hhead_pred : (decide (now1 - period < h) && decide (h ≤ now1)) = true := by
        simp only [Bool.and_eq_true, decide_eq_true_eq]
        exact ⟨hh, hall_le h hmemh⟩
      have hcnt_cs : (pruneCalls period now1 s.calls).countP
          (fun x => decide (now1 - period < x) && decide (x ≤ now1)) = tl.length + 1 := by
        rw [hcons, List.countP_cons, hhead_pred, htl_count]
        simp
      constructor
      · intro hsl
        simp only [sleepsAt, Bool.and_eq_true, decide_eq_true_eq, hcons,
          List.length_cons] at hsl
        rw [heq, hcnt_cs]
        omega
      · intro hcnt
        rw [heq, hcnt_cs] at hcnt
        simp only [sleepsAt, Bool.and_eq_true, decide_eq_true_eq, hcons,
          List.length_cons, List.headD_cons]
        exact ⟨by omega, by linarith⟩
    · have hhe : h = now1 - period := le_antisymm (not_lt.mp hh) hhlow
      constructor
      · intro hsl
        simp only [sleepsAt, Bool.and_eq_true, decide_eq_true_eq, hcons,
          List.length_cons, List.headD_cons] at hsl
        obtain ⟨_, hpos⟩ := hsl
        rw [hhe] at hpos
        linarith
      · intro hcnt
        exfalso
        have hhead_pred : (decide (now1 - period < h) && decide (h ≤ now1)) = false := by
          simp [hh]
        rw [heq, hcons, List.countP_cons, hhead_pred] at hcnt
        simp only [Bool.false_eq_true, if_false, Nat.add_zero] at hcnt
        rw [htl_count] at hcnt
        omega

theorem RLInv_initRL (mc : Nat) (period : ℚ) (c0 : ℚ) : RLInv mc period (initRL c0) := by
  refine ⟨by simp [initRL], ⟨[], rfl⟩, by simp [initRL], by simp [initRL], ?_⟩
  intro a
  simp [initRL, windowCount]

theorem RLInv_runTrace (mc : Nat) (period : ℚ) (s : RLState) (tr : List CallTimes)
    (hmc : 1 ≤ mc) (hinv : RLInv mc period s) (hv : validTrace mc period s tr = true) :
    RLInv mc period (runTrace mc period s tr) := by
  induction tr generalizing s with
  | nil => exact hinv
  | cons c rest ih =>
    rw [validTrace, Bool.and_eq_true] at hv
    simp only [runTrace, List.foldl_cons]
    exact ih _ (RLInv_wait_if_needed mc period s c hmc hinv hv.1) hv.2

theorem validTrace_append_middle (mc : Nat) (period : ℚ) (s : RLState)
    (pre : List CallTimes) (c : CallTimes) (post : List CallTimes)
    (hv : validTrace mc period s (pre ++ c :: post) = true) :
    validTrace mc period s pre = true ∧
    validCall mc period (runTrace mc period s pre) c = true := by
  induction pre generalizing s with
  | nil =>
    rw [List.nil_append, validTrace, Bool.and_eq_true] at hv
    exact ⟨rfl, hv.1⟩
  | cons d rest ih =>
    rw [List.cons_append, validTrace, Bool.and_eq_true] at hv
    obtain ⟨hd, htail⟩ := hv
    obtain ⟨h1, h2⟩ := ih (wait_if_needed mc period s d) htail
    refine ⟨?_, ?_⟩
    · rw [validTrace, Bool.and_eq_true]
      exact ⟨hd, h1⟩
    · simpa only [runTrace, List.foldl_cons] using h2

/-- C4: under the strictly-monotone-clock model of `wait_if_needed`, for
every admissible call sequence started from a fresh limiter, (1) every
closed time window of length `period` contains at most `max_calls`
recorded call timestamps, and (2) a call blocks (sleeps) exactly when the
quota of `max_calls` recorded calls already falls inside its trailing
half-open window `(now - period, now]`, i.e. exactly when issuing another
call immediately would exceed the quota; otherwise it returns without
sleeping. -/
theorem rate_limiter_window_bound_and_blocking (mc : Nat) (period c0 : ℚ)
    (tr : List CallTimes) (hmc : 1 ≤ mc)
    (hv : validTrace mc period (initRL c0) tr = true) :
    (∀ a : ℚ, windowCount period (runTrace mc period (initRL c0) tr).hist a ≤ mc)
    ∧ (∀ pre c post, tr = pre ++ c :: post →
        (sleepsAt mc period (runTrace mc period (initRL c0) pre).calls c.now1 = true
          ↔ mc ≤ trailingCount period (runTrace mc period (initRL c0) pre).hist c.now1)) := by
  constructor
  · exact (RLInv_runTrace mc period _ tr hmc (RLInv_initRL mc period c0) hv).2.2.2.2
  · intro pre c post htr
    subst htr
    obtain ⟨hpre, hc⟩ := validTrace_append_middle mc period _ pre c post hv
    have hinv := RLInv_runTrace mc period _ pre hmc (RLInv_initRL mc period c0) hpre
    have hlast : (runTrace mc period (initRL c0) pre).lastReading < c.now1 := by
      rw [validCall, Bool.and_eq_true] at hc
      exact of_decide_eq_true hc.1
    exact sleepsAt_iff_trailing mc period _ c.now1 hmc hinv hlast

/-- Witness for C4: a two-call trace with `max_calls = 1`, `period = 2`:
the first call at time 2 proceeds immediately and is recorded at time 4;
the second arrives at 5, sleeps until 6 (when the first recorded call
leaves the window) and is recorded at 7. -/
theorem rate_limiter_window_bound_and_blocking_witness :
    ((1 : Nat) ≤ 1
      ∧ validTrace 1 2 (initRL 0) [⟨2, 0, 4⟩, ⟨5, 6, 7⟩] = true)
    ∧ ((∀ a : ℚ,
          windowCount 2 (runTrace 1 2 (initRL 0) [⟨2, 0, 4⟩, ⟨5, 6, 7⟩]).hist a ≤ 1)
      ∧ (∀ pre c post, [(⟨2, 0, 4⟩ : CallTimes), ⟨5, 6, 7⟩] = pre ++ c :: post →
          (sleepsAt 1 2 (runTrace 1 2 (initRL 0) pre).calls c.now1 = true
            ↔ 1 ≤ trailingCount 2 (runTrace 1 2 (initRL 0) pre).hist c.now1))) :=
  ⟨⟨le_refl 1, by
      norm_num [validTrace, validCall, wait_if_needed, sleepsAt, pruneCalls,
        initRL, List.dropWhile]⟩,
   rate_limiter_window_bound_and_blocking 1 2 0 [⟨2, 0, 4⟩, ⟨5, 6, 7⟩]
     (le_refl 1) (by
      norm_num [validTrace, validCall, wait_if_needed, sleepsAt, pruneCalls,
        initRL, List.dropWhile])⟩
